import Mathlib

/-!
Verification of the particle-registry and collision-engine specification of the
SMASH repository against a shallow embedding of its source.

The registry (class Particles, src/unnamed/part_002) stores particles in a
slot array with holes; external code keeps copies (handles) carrying the slot
index, the particle id and the id_process generation stamp.  The inline member
functions of the header (is_valid, update_particle, update, lookup,
copy_to_vector) are translated directly from the source.  The bodies of
insert, remove and replace are not part of the given sources (only their
declarations and documentation are), so they are modelled from the spec; each
such definition carries a doc comment starting with the words Modelled from
the spec.  Machine integers are modelled as Int/Nat (ids stay far below any
overflow bound in every scenario considered) and floating-point quantities as
rationals.
-/

namespace Smash

/-- Four-vector of rationals standing in for the FourVector of doubles. -/
structure FourVector where
  x0 : ℚ
  x1 : ℚ
  x2 : ℚ
  x3 : ℚ
deriving DecidableEq

/-- ParticleData restricted to the fields the registry manipulates: the unique
id, the id_process generation stamp, the particle type (an opaque code),
four-momentum, four-position, and the registry-owned slot index and hole
marker. -/
structure ParticleData where
  id : Int
  id_process : Nat
  ptype : Nat
  momentum : FourVector
  position : FourVector
  index : Nat
  hole : Bool
deriving DecidableEq

/-- State of the Particles registry: the used range data_[0, data_size_) as a
list, the highest issued id (-1 initially), and the stack of dirty (hole)
slots to be reused, most recently freed first. -/
structure Particles where
  data_ : List ParticleData
  id_max_ : Int
  dirty_ : List Nat
deriving DecidableEq

/-- Registry state right after construction: no particles, id counter at -1,
no dirty slots. -/
def Particles.empty : Particles := { data_ := [], id_max_ := -1, dirty_ := [] }

/-- Particles.is_valid translated from the source header: a copy is valid iff
its index lies inside the used range and the slot at that index holds matching
id and id_process. -/
def Particles.is_valid (P : Particles) (copy : ParticleData) : Bool :=
  match P.data_[copy.index]? with
  | none => false
  | some q => q.id == copy.id && q.id_process == copy.id_process

/-- ParticleData.copy_to as documented in the source header for
update_particle: the state update copies the id_process, momentum and position
from the source state; id, type, index and hole marker of the destination are
left unchanged. -/
def ParticleData.copy_to (src dst : ParticleData) : ParticleData :=
  { dst with id_process := src.id_process, momentum := src.momentum,
             position := src.position }

/-- Particles.update_particle from the source header: expects a valid copy of
equal type (assertions in the source, modelled as guards making the call a
no-op otherwise), overwrites the slot with new_state.copy_to(original) and
returns the updated particle. -/
def Particles.update_particle (P : Particles) (p new_state : ParticleData) :
    Particles × ParticleData :=
  if P.is_valid p && (p.ptype == new_state.ptype) then
    match P.data_[p.index]? with
    | none => (P, p)
    | some original =>
        let r := ParticleData.copy_to new_state original
        ({ P with data_ := P.data_.set p.index r }, r)
  else (P, p)

/-- Modelled from the spec: the record stored by Particles.insert, following
the header documentation of copy_in — the next unique id (id_max_ + 1) is
assigned, id_process, type, momentum and position are copied from the
argument, the slot index is recorded and the hole marker cleared. -/
def Particles.fresh (P : Particles) (p : ParticleData) (i : Nat) : ParticleData :=
  { id := P.id_max_ + 1, id_process := p.id_process, ptype := p.ptype,
    momentum := p.momentum, position := p.position, index := i, hole := false }

/-- Modelled from the spec: the body of Particles.insert is not under src
(only its declaration and documentation are).  Per spec 4.1, insert assigns
the next unique id, writes the fresh record into the most recently recorded
reused hole or appends it at the end of the used range, and returns the
stored copy.  It never fails. -/
def Particles.insert (P : Particles) (p : ParticleData) :
    Particles × ParticleData :=
  match P.dirty_ with
  | [] =>
      ({ data_ := P.data_ ++ [P.fresh p P.data_.length],
         id_max_ := P.id_max_ + 1, dirty_ := [] },
       P.fresh p P.data_.length)
  | i :: rest =>
      ({ data_ := P.data_.set i (P.fresh p i),
         id_max_ := P.id_max_ + 1, dirty_ := rest },
       P.fresh p i)

/-- Modelled from the spec: the body of Particles.remove is not under src.
Per spec 4.1 and the data model of section 3, remove requires a valid copy of
a live particle (assertion in the source, modelled as a guard making the call
a no-op otherwise), marks the slot a hole — the slot then no longer holds a
particle, modelled by erasing the stored identity to the hole id -1 — and
records the index for reuse. -/
def Particles.remove (P : Particles) (p : ParticleData) : Particles :=
  match P.data_[p.index]? with
  | none => P
  | some q =>
      if !q.hole && (q.id == p.id) && (q.id_process == p.id_process) then
        { P with data_ := P.data_.set p.index { q with hole := true, id := -1 },
                 dirty_ := p.index :: P.dirty_ }
      else P

/-- Sequential insertion of a list of particles, returning the stored valid
copies in order; the loop underlying the insertion half of replace. -/
def Particles.insertAll : Particles → List ParticleData →
    Particles × List ParticleData
  | P, [] => (P, [])
  | P, p :: ps =>
      let Pq := P.insert p
      let Pqs := Pq.1.insertAll ps
      (Pqs.1, Pq.2 :: Pqs.2)

/-- Modelled from the spec: the body of Particles.replace is not under src.
Per spec 4.1, replace removes every particle in to_remove and inserts every
particle in to_add, returning the inserted copies (adjusted to be valid copies
of the new particles). -/
def Particles.replace (P : Particles) (to_remove to_add : List ParticleData) :
    Particles × List ParticleData :=
  Particles.insertAll (to_remove.foldl Particles.remove P) to_add

/-- Pairwise in-place update loop of Particles.update for the non-replacing
case: new_state[i] = update_particle(old_state[i], new_state[i]). -/
def Particles.updateAll : Particles → List ParticleData → List ParticleData →
    Particles × List ParticleData
  | P, o :: os, n :: ns =>
      let Pr := P.update_particle o n
      let rest := Pr.1.updateAll os ns
      (rest.1, Pr.2 :: rest.2)
  | P, _, _ => (P, [])

/-- Particles.update translated from the source header: replaces the old
particles by the new ones when do_replace is set (so that they get new ids),
otherwise keeps the old particles and updates them in place through
update_particle. -/
def Particles.update (P : Particles) (old_state new_state : List ParticleData)
    (do_replace : Bool) : Particles × List ParticleData :=
  if do_replace then P.replace old_state new_state
  else P.updateAll old_state new_state

/-- Particles.lookup from the source header: the particle currently stored at
the slot the copy points to (precondition is_valid, modelled by returning the
argument itself on an out-of-range index). -/
def Particles.lookup (P : Particles) (old_state : ParticleData) : ParticleData :=
  match P.data_[old_state.index]? with
  | none => old_state
  | some q => q

/-- Fast path of copy_to_vector translated from the source: the raw copy of
the contiguous used range data_[0, data_size_). -/
def Particles.copy_to_vector_fast (P : Particles) : List ParticleData :=
  P.data_

/-- General path of copy_to_vector translated from the source: the iterator
walk from begin() to end(), which skips every hole slot. -/
def Particles.copy_to_vector_general (P : Particles) : List ParticleData :=
  P.data_.filter (fun q => !q.hole)

/-- Particles.copy_to_vector translated from the source: the raw range copy
when the dirty list is empty, the hole-skipping iterator path otherwise. -/
def Particles.copy_to_vector (P : Particles) : List ParticleData :=
  if P.dirty_.isEmpty then P.copy_to_vector_fast else P.copy_to_vector_general

/-- Modelled from the spec: Action::perform is not under src (only the tests
calling it are).  Per spec 4.4 and the scatteraction tests, perform stamps
every outgoing particle with the caller-supplied id_process and commits
through Particles.update, replacing the incoming particles unless the process
is elastic; an elastic scattering keeps the incoming particles and updates
them in place. -/
def Action.perform (P : Particles) (incoming outgoing : List ParticleData)
    (idp : Nat) (elastic : Bool) : Particles × List ParticleData :=
  P.update incoming (outgoing.map fun q => { q with id_process := idp })
    (!elastic)

/-- Modelled from the spec: the elastic final state (spec 4.4) consists of the
same particles with updated momenta. -/
def elasticOutgoing (p : ParticleData) (newMom : FourVector) : ParticleData :=
  { p with momentum := newMom }

/-- One mutating registry operation — insert, remove, update_particle or
replace — with arbitrary arguments; the preconditions the source asserts are
enforced by the guards inside the operations, which make a violating call a
no-op. -/
inductive Step : Particles → Particles → Prop
  | insert (P : Particles) (p : ParticleData) : Step P (P.insert p).1
  | remove (P : Particles) (p : ParticleData) : Step P (P.remove p)
  | update (P : Particles) (p s : ParticleData) : Step P (P.update_particle p s).1
  | replace (P : Particles) (rem add : List ParticleData) :
      Step P (P.replace rem add).1

/-- Any finite sequence of mutating registry operations. -/
def Steps : Particles → Particles → Prop := Relation.ReflTransGen Step

/-- Well-formedness invariant of reachable registry states: every slot records
its own index, every stored id is bounded by the id counter, holes carry the
hole id -1 and live particles a non-negative id, the dirty stack lists exactly
the hole slots without duplicates, and the id counter is at least -1. -/
structure Wf (P : Particles) : Prop where
  idxOk : ∀ (i : Nat) (q : ParticleData), P.data_[i]? = some q → q.index = i
  idLe : ∀ q ∈ P.data_, q.id ≤ P.id_max_
  holeId : ∀ q ∈ P.data_, q.hole = true → q.id = -1
  liveId : ∀ q ∈ P.data_, q.hole = false → 0 ≤ q.id
  dirtyHole : ∀ i ∈ P.dirty_,
    ∃ q : ParticleData, P.data_[i]? = some q ∧ q.hole = true
  holeDirty : ∀ (i : Nat) (q : ParticleData),
    P.data_[i]? = some q → q.hole = true → i ∈ P.dirty_
  dirtyNodup : P.dirty_.Nodup
  negOneLe : -1 ≤ P.id_max_

/-- A consumed identity: the id n was already issued (it is non-negative and
bounded by the id counter) and the slot at index i does not hold it.  Once
this holds it persists through every later operation, because newly issued
ids strictly exceed the counter and holes carry id -1. -/
def Dead (P : Particles) (i : Nat) (n : Int) : Prop :=
  0 ≤ n ∧ n ≤ P.id_max_ ∧
    ∀ q : ParticleData, P.data_[i]? = some q → q.id ≠ n

/-- Example particle used to build concrete registry states in witnesses. -/
def pA : ParticleData :=
  { id := 77, id_process := 1, ptype := 3, momentum := ⟨1, 1, 0, 0⟩,
    position := ⟨0, 0, 0, 0⟩, index := 9, hole := false }

/-- Second example particle. -/
def pB : ParticleData :=
  { id := 55, id_process := 1, ptype := 3, momentum := ⟨1, -1, 0, 0⟩,
    position := ⟨0, 1, 0, 0⟩, index := 4, hole := false }

/-- Registry holding the copy of pA. -/
def regA : Particles := (Particles.empty.insert pA).1

/-- Valid copy returned when pA was inserted. -/
def hA : ParticleData := (Particles.empty.insert pA).2

/-- Registry holding copies of pA and pB. -/
def regAB : Particles := (regA.insert pB).1

/-- Valid copy returned when pB was inserted. -/
def hB : ParticleData := (regA.insert pB).2

/-- Modelled from the spec: performing an elastic 2->2 action (spec 4.4,
elastic branch).  The outgoing states are the incoming particles with updated
momenta; perform stamps them with the caller-supplied process id and commits
them in place through Particles.update with do_replace false. -/
def performElastic (P : Particles) (a b : ParticleData) (pa pb : FourVector)
    (idp : Nat) : Particles × List ParticleData :=
  Action.perform P [a, b] [elasticOutgoing a pa, elasticOutgoing b pb] idp true

/-- The cut_off function translated from src/src/photoncrosssections.cc: a
cross-section value above the maximum bound is replaced by the bound,
otherwise it is returned unchanged.  The bound smash::maximum_cross_section
is a constant defined outside the given sources, so it is taken as a
parameter. -/
def cut_off (maximum_cross_section : ℚ) (sigma_mb : ℚ) : ℚ :=
  if sigma_mb > maximum_cross_section then maximum_cross_section else sigma_mb

/-- Modelled from the spec (4.2): add_channel accumulates a partial cross
section into the running total; a channel with cross section at most zero is
simply omitted. -/
def add_channel (total : ℚ) (xs : ℚ) : ℚ :=
  if xs ≤ 0 then total else total + xs

/-- Modelled from the spec (4.2, 6): the total cross section is the
accumulation of the provider's ordered channel list through add_channel. -/
def total_cross_section (channels : List ℚ) : ℚ :=
  channels.foldl add_channel 0

/-- Concrete channel provider for the C6 witness: the channel set 2, 3, 5
of spec scenario D, listed in swapped order for the swapped pair. -/
def providerEx : Nat → Nat → List ℚ :=
  fun i j => if i ≤ j then [2, 3, 5] else [5, 3, 2]

/-- Three-vector of rationals. -/
structure ThreeVector where
  x1 : ℚ
  x2 : ℚ
  x3 : ℚ
deriving DecidableEq

/-- Dot product of three-vectors. -/
def ThreeVector.dot (u v : ThreeVector) : ℚ :=
  u.x1 * v.x1 + u.x2 * v.x2 + u.x3 * v.x3

/-- Difference of three-vectors. -/
def ThreeVector.sub (u v : ThreeVector) : ThreeVector :=
  ⟨u.x1 - v.x1, u.x2 - v.x2, u.x3 - v.x3⟩

/-- Cross product of three-vectors; it vanishes exactly on parallel pairs. -/
def ThreeVector.cross (u v : ThreeVector) : ThreeVector :=
  ⟨u.x2 * v.x3 - u.x3 * v.x2, u.x3 * v.x1 - u.x1 * v.x3,
   u.x1 * v.x2 - u.x2 * v.x1⟩

/-- Spatial part of a four-vector. -/
def FourVector.threevec (v : FourVector) : ThreeVector :=
  ⟨v.x1, v.x2, v.x3⟩

/-- Three-velocity of a particle: its three-momentum divided by its energy. -/
def velocity (p : ParticleData) : ThreeVector :=
  ⟨p.momentum.x1 / p.momentum.x0, p.momentum.x2 / p.momentum.x0,
   p.momentum.x3 / p.momentum.x0⟩

/-- Modelled from the spec: ScatterActionsFinder::collision_time is not under
src (only the test calling it is).  Per spec 4.3 steps 1 and 3 this is the
UrQMD closest-approach time in the computational frame,
t = -(r1 - r2).(v1 - v2) / (v1 - v2)^2, and a pair with no relative motion
(no finite closest approach) resolves to no collision, encoded as the
negative time -1 — the test checks collision_time < 0. -/
def collision_time (a b : ParticleData) : ℚ :=
  if ((velocity a).sub (velocity b)).dot ((velocity a).sub (velocity b)) = 0
  then -1
  else
    -(((a.position.threevec).sub (b.position.threevec)).dot
        ((velocity a).sub (velocity b))) /
      (((velocity a).sub (velocity b)).dot ((velocity a).sub (velocity b)))

/-- First particle of the C7 counterexample: moving along x with velocity
one half, placed ahead at x = 1. -/
def cexA : ParticleData :=
  { id := 0, id_process := 0, ptype := 1, momentum := ⟨2, 1, 0, 0⟩,
    position := ⟨0, 1, 0, 0⟩, index := 0, hole := false }

/-- Second particle of the C7 counterexample: moving along the same
direction with the larger velocity three quarters, placed behind at the
origin, so it catches up. -/
def cexB : ParticleData :=
  { id := 1, id_process := 0, ptype := 1, momentum := ⟨1, 3/4, 0, 0⟩,
    position := ⟨0, 0, 0, 0⟩, index := 1, hole := false }

/-- First particle of the impossible_collision test: momentum
(0.1, 0.3, -0.1, 0.2) at position (1, 1, 1, 1). -/
def impA : ParticleData :=
  { id := 1, id_process := 0, ptype := 1,
    momentum := ⟨1/10, 3/10, -1/10, 1/5⟩,
    position := ⟨1, 1, 1, 1⟩, index := 0, hole := false }

/-- Second particle of the impossible_collision test: the same momentum at
position (2, 2, 2, 2). -/
def impB : ParticleData :=
  { id := 2, id_process := 0, ptype := 1,
    momentum := ⟨1/10, 3/10, -1/10, 1/5⟩,
    position := ⟨2, 2, 2, 2⟩, index := 1, hole := false }

/-- Modelled from the spec (4.3 tie-break, 5): the execution ordering key of
a candidate Action — the scheduled collision time, with equal-time ties
broken by the ascending id pair of the incoming particles. -/
structure ActionKey where
  time : ℚ
  idLow : Int
  idHigh : Int
deriving DecidableEq

/-- Modelled from the spec: the strict ordering used to execute candidate
Actions — ascending collision time first, then the ascending particle id
pair as the deterministic secondary key. -/
def actionLt (x y : ActionKey) : Bool :=
  if x.time < y.time then true
  else if y.time < x.time then false
  else if x.idLow < y.idLow then true
  else if y.idLow < x.idLow then false
  else if x.idHigh < y.idHigh then true
  else false

/-- The freshly constructed registry is well formed. -/
theorem wf_empty : Wf Particles.empty := by
  constructor <;> simp [Particles.empty]

/-- An index at which a list lookup succeeds is inside the list. -/
theorem getElem?_some_lt {α : Type} {l : List α} {i : Nat} {q : α}
    (h : l[i]? = some q) : i < l.length := by
  by_contra hc
  rw [List.getElem?_eq_none_iff.mpr (Nat.le_of_not_lt hc)] at h
  exact Option.noConfusion h

/-- A successful lookup in a list with one updated entry yields either the old
entry or the written value. -/
theorem getElem?_set_cases {α : Type} {l : List α} {j i : Nat} {a q : α}
    (h : (l.set j a)[i]? = some q) : l[i]? = some q ∨ q = a := by
  by_cases hij : j = i
  · subst hij
    by_cases hl : j < l.length
    · rw [List.getElem?_set_self hl] at h
      exact Or.inr (Option.some.inj h).symm
    · rw [List.set_eq_of_length_le (Nat.le_of_not_lt hl)] at h
      exact Or.inl h
  · rw [List.getElem?_set_ne hij] at h
    exact Or.inl h

/-- A successful lookup in a list extended by one element yields either an old
entry or, at the old length, the appended value. -/
theorem getElem?_concat_cases {α : Type} {l : List α} {a : α} {i : Nat} {q : α}
    (h : (l ++ [a])[i]? = some q) : l[i]? = some q ∨ (i = l.length ∧ q = a) := by
  by_cases hl : i < l.length
  · rw [List.getElem?_append_left hl] at h
    exact Or.inl h
  · have hlen : i < l.length + 1 := by
      have := getElem?_some_lt h
      simpa using this
    have hi : i = l.length := by omega
    subst hi
    rw [List.getElem?_concat_length] at h
    exact Or.inr ⟨rfl, (Option.some.inj h).symm⟩

/-- Unfolding of is_valid: the copy is valid iff the slot at its index exists
and holds matching id and id_process. -/
theorem is_valid_iff (P : Particles) (h : ParticleData) :
    P.is_valid h = true ↔
      ∃ q : ParticleData, P.data_[h.index]? = some q ∧
        q.id = h.id ∧ q.id_process = h.id_process := by
  unfold Particles.is_valid
  cases hq : P.data_[h.index]? with
  | none => simp
  | some q => simp [Bool.and_eq_true, beq_iff_eq]

/-- In a well-formed state a valid copy with a non-negative id points to a
live (non-hole) slot with matching id and id_process. -/
theorem valid_live {P : Particles} {h : ParticleData} (W : Wf P)
    (h0 : 0 ≤ h.id) (hv : P.is_valid h = true) :
    ∃ q : ParticleData, P.data_[h.index]? = some q ∧ q.hole = false ∧
      q.id = h.id ∧ q.id_process = h.id_process := by
  obtain ⟨q, hq, hid, hidp⟩ := (is_valid_iff P h).mp hv
  refine ⟨q, hq, ?_, hid, hidp⟩
  cases hh : q.hole with
  | false => rfl
  | true =>
      have := W.holeId q (List.getElem?_mem hq) hh
      omega

/-- Unfolding equation of insert when no hole is available: the fresh record
is appended at the end of the used range. -/
theorem insert_eq_of_dirty_nil (P : Particles) (p : ParticleData)
    (hd : P.dirty_ = []) :
    P.insert p =
      ({ data_ := P.data_ ++ [P.fresh p P.data_.length],
         id_max_ := P.id_max_ + 1, dirty_ := [] },
       P.fresh p P.data_.length) := by
  unfold Particles.insert
  rw [hd]

/-- Unfolding equation of insert when a hole is available: the fresh record
is written into the most recently recorded dirty slot. -/
theorem insert_eq_of_dirty_cons (P : Particles) (p : ParticleData) (i : Nat)
    (rest : List Nat) (hd : P.dirty_ = i :: rest) :
    P.insert p =
      ({ data_ := P.data_.set i (P.fresh p i),
         id_max_ := P.id_max_ + 1, dirty_ := rest },
       P.fresh p i) := by
  unfold Particles.insert
  rw [hd]

/-- Unfolding equation of remove on a valid copy of a live particle: the slot
is marked a hole with erased identity and recorded for reuse. -/
theorem remove_eq_mark {P : Particles} {h q : ParticleData}
    (hq : P.data_[h.index]? = some q) (h1 : q.hole = false)
    (h2 : q.id = h.id) (h3 : q.id_process = h.id_process) :
    P.remove h =
      { data_ := P.data_.set h.index { q with hole := true, id := -1 },
        id_max_ := P.id_max_, dirty_ := h.index :: P.dirty_ } := by
  unfold Particles.remove
  rw [hq]
  simp [h1, h2, h3]

/-- Remove is a no-op when the slot does not hold a matching live particle. -/
theorem remove_eq_self {P : Particles} {h : ParticleData}
    (hng : ∀ q : ParticleData, P.data_[h.index]? = some q →
      ¬(q.hole = false ∧ q.id = h.id ∧ q.id_process = h.id_process)) :
    P.remove h = P := by
  unfold Particles.remove
  cases hq : P.data_[h.index]? with
  | none => rfl
  | some q =>
      have hn := hng q hq
      by_cases h1 : q.hole = false
      · by_cases h2 : q.id = h.id
        · by_cases h3 : q.id_process = h.id_process
          · exact absurd ⟨h1, h2, h3⟩ hn
          · simp [h3]
        · simp [h2]
      · have h1t : q.hole = true := by revert h1; cases q.hole <;> simp
        simp [h1t]

/-- Case analysis of remove: either the state is unchanged, or the slot held
the matching live particle and is marked a hole with erased identity. -/
theorem remove_cases (P : Particles) (h : ParticleData) :
    P.remove h = P ∨
    ∃ q : ParticleData, P.data_[h.index]? = some q ∧ q.hole = false ∧
      q.id = h.id ∧ q.id_process = h.id_process ∧
      P.remove h =
        { data_ := P.data_.set h.index { q with hole := true, id := -1 },
          id_max_ := P.id_max_, dirty_ := h.index :: P.dirty_ } := by
  cases hq : P.data_[h.index]? with
  | none =>
      left
      exact remove_eq_self (fun q hsome => by rw [hq] at hsome; exact Option.noConfusion hsome)
  | some q =>
      by_cases hg : q.hole = false ∧ q.id = h.id ∧ q.id_process = h.id_process
      · exact Or.inr ⟨q, rfl, hg.1, hg.2.1, hg.2.2,
          remove_eq_mark hq hg.1 hg.2.1 hg.2.2⟩
      · left
        refine remove_eq_self (fun q2 hsome => ?_)
        rw [hq] at hsome
        rw [← Option.some.inj hsome]
        exact hg

/-- Unfolding equation of update_particle when the guards pass: the slot is
overwritten with copy_to of the new state onto the original. -/
theorem update_particle_eq_write {P : Particles} {p s q : ParticleData}
    (hq : P.data_[p.index]? = some q) (hv : P.is_valid p = true)
    (ht : p.ptype = s.ptype) :
    P.update_particle p s =
      ({ data_ := P.data_.set p.index (ParticleData.copy_to s q),
         id_max_ := P.id_max_, dirty_ := P.dirty_ },
       ParticleData.copy_to s q) := by
  unfold Particles.update_particle
  rw [if_pos (by simp [hv, ht])]
  rw [hq]

/-- Update_particle is a no-op when a guard fails. -/
theorem update_particle_eq_self {P : Particles} {p s : ParticleData}
    (hng : ¬(P.is_valid p = true ∧ p.ptype = s.ptype)) :
    P.update_particle p s = (P, p) := by
  unfold Particles.update_particle
  have hcond : ¬((P.is_valid p && (p.ptype == s.ptype)) = true) := by
    simp only [Bool.and_eq_true, beq_iff_eq]
    exact hng
  rw [if_neg hcond]

/-- Case analysis of update_particle: either the pair is unchanged, or the
copy is valid, the types agree, and the slot is overwritten by copy_to. -/
theorem update_particle_cases (P : Particles) (p s : ParticleData) :
    P.update_particle p s = (P, p) ∨
    ∃ q : ParticleData, P.data_[p.index]? = some q ∧ P.is_valid p = true ∧
      p.ptype = s.ptype ∧
      P.update_particle p s =
        ({ data_ := P.data_.set p.index (ParticleData.copy_to s q),
           id_max_ := P.id_max_, dirty_ := P.dirty_ },
         ParticleData.copy_to s q) := by
  by_cases hg : P.is_valid p = true ∧ p.ptype = s.ptype
  · cases hq : P.data_[p.index]? with
    | none =>
        obtain ⟨q, hsome, _, _⟩ := (is_valid_iff P p).mp hg.1
        rw [hq] at hsome
        exact Option.noConfusion hsome
    | some q =>
        exact Or.inr ⟨q, rfl, hg.1, hg.2, update_particle_eq_write hq hg.1 hg.2⟩
  · exact Or.inl (update_particle_eq_self hg)

/-- Insertion preserves the well-formedness invariant. -/
theorem wf_insert (P : Particles) (p : ParticleData) (W : Wf P) :
    Wf (P.insert p).1 := by
  cases hd : P.dirty_ with
  | nil =>
      rw [insert_eq_of_dirty_nil P p hd]
      constructor
      · intro i q hq
        rcases getElem?_concat_cases hq with hold | ⟨hi, hqe⟩
        · exact W.idxOk i q hold
        · subst hqe
          simp [Particles.fresh, hi]
      · intro q hq
        rcases List.mem_append.mp hq with hold | hnew
        · have := W.idLe q hold
          simp only
          omega
        · simp at hnew
          subst hnew
          simp [Particles.fresh]
      · intro q hq hh
        rcases List.mem_append.mp hq with hold | hnew
        · exact W.holeId q hold hh
        · simp at hnew
          subst hnew
          simp [Particles.fresh] at hh
      · intro q hq hlive
        rcases List.mem_append.mp hq with hold | hnew
        · exact W.liveId q hold hlive
        · simp at hnew
          subst hnew
          have := W.negOneLe
          simp [Particles.fresh]
          omega
      · intro i hi
        simp at hi
      · intro i q hq hh
        rcases getElem?_concat_cases hq with hold | ⟨hi, hqe⟩
        · have := W.holeDirty i q hold hh
          rw [hd] at this
          simp at this
        · subst hqe
          simp [Particles.fresh] at hh
      · simp
      · have := W.negOneLe
        simp only
        omega
  | cons i rest =>
      rw [insert_eq_of_dirty_cons P p i rest hd]
      have hmemi : i ∈ P.dirty_ := by
        rw [hd]
        exact List.mem_cons_self i rest
      obtain ⟨qi, hqi, hqih⟩ := W.dirtyHole i hmemi
      have hilen : i < P.data_.length := getElem?_some_lt hqi
      have hnodup : (i :: rest).Nodup := by
        rw [← hd]
        exact W.dirtyNodup
      have hirest : i ∉ rest := (List.nodup_cons.mp hnodup).1
      constructor
      · intro j q hq
        rcases getElem?_set_cases hq with hold | hqe
        · exact W.idxOk j q hold
        · subst hqe
          by_cases hij : i = j
          · simp [Particles.fresh, hij]
          · rw [List.getElem?_set_ne hij] at hq
            have := W.idxOk j _ hq
            simpa [Particles.fresh] using this
      · intro q hq
        rcases List.mem_or_eq_of_mem_set hq with hold | hnew
        · have := W.idLe q hold
          simp only
          omega
        · subst hnew
          simp [Particles.fresh]
      · intro q hq hh
        rcases List.mem_or_eq_of_mem_set hq with hold | hnew
        · exact W.holeId q hold hh
        · subst hnew
          simp [Particles.fresh] at hh
      · intro q hq hlive
        rcases List.mem_or_eq_of_mem_set hq with hold | hnew
        · exact W.liveId q hold hlive
        · subst hnew
          have := W.negOneLe
          simp [Particles.fresh]
          omega
      · intro j hj
        have hjd : j ∈ P.dirty_ := by
          rw [hd]
          exact List.mem_cons_of_mem i hj
        obtain ⟨qj, hqj, hqjh⟩ := W.dirtyHole j hjd
        have hij : i ≠ j := fun hcon => hirest (hcon ▸ hj)
        refine ⟨qj, ?_, hqjh⟩
        rw [List.getElem?_set_ne hij]
        exact hqj
      · intro j q hq hh
        rcases getElem?_set_cases hq with hold | hqe
        · by_cases hij : i = j
          · subst hij
            rw [List.getElem?_set_self hilen] at hq
            have hqe := Option.some.inj hq
            rw [← hqe] at hh
            simp [Particles.fresh] at hh
          · have hjd := W.holeDirty j q hold hh
            rw [hd] at hjd
            rcases List.mem_cons.mp hjd with hji | hjr
            · exact absurd hji.symm hij
            · exact hjr
        · subst hqe
          simp [Particles.fresh] at hh
      · exact (List.nodup_cons.mp hnodup).2
      · have := W.negOneLe
        simp only
        omega

/-- Removal preserves the well-formedness invariant. -/
theorem wf_remove (P : Particles) (h : ParticleData) (W : Wf P) :
    Wf (P.remove h) := by
  rcases remove_cases P h with hself | ⟨q, hq, h1, h2, h3, heq⟩
  · rw [hself]
    exact W
  · rw [heq]
    have hlen : h.index < P.data_.length := getElem?_some_lt hq
    have hnotdirty : h.index ∉ P.dirty_ := by
      intro hcon
      obtain ⟨q2, hq2, hq2h⟩ := W.dirtyHole h.index hcon
      rw [hq] at hq2
      rw [← Option.some.inj hq2] at hq2h
      rw [h1] at hq2h
      exact Bool.noConfusion hq2h
    constructor
    · intro j q2 hq2
      rcases getElem?_set_cases hq2 with hold | hqe
      · exact W.idxOk j q2 hold
      · subst hqe
        by_cases hij : h.index = j
        · have := W.idxOk h.index q hq
          simpa [hij] using hij ▸ this
        · rw [List.getElem?_set_ne hij] at hq2
          have := W.idxOk j _ hq2
          simpa using this
    · intro q2 hq2
      rcases List.mem_or_eq_of_mem_set hq2 with hold | hnew
      · have := W.idLe q2 hold
        simpa using this
      · subst hnew
        have := W.negOneLe
        simpa using this
    · intro q2 hq2 hh
      rcases List.mem_or_eq_of_mem_set hq2 with hold | hnew
      · exact W.holeId q2 hold hh
      · subst hnew
        rfl
    · intro q2 hq2 hlive
      rcases List.mem_or_eq_of_mem_set hq2 with hold | hnew
      · exact W.liveId q2 hold hlive
      · subst hnew
        simp at hlive
    · intro j hj
      simp only at hj
      rcases List.mem_cons.mp hj with hji | hjd
      · subst hji
        refine ⟨{ q with hole := true, id := -1 }, ?_, rfl⟩
        simp only
        rw [List.getElem?_set_self hlen]
      · obtain ⟨qj, hqj, hqjh⟩ := W.dirtyHole j hjd
        have hij : h.index ≠ j := fun hcon => hnotdirty (hcon ▸ hjd)
        refine ⟨qj, ?_, hqjh⟩
        simp only
        rw [List.getElem?_set_ne hij]
        exact hqj
    · intro j q2 hq2 hh
      simp only at hq2 ⊢
      rcases getElem?_set_cases hq2 with hold | hqe
      · by_cases hij : h.index = j
        · exact List.mem_cons.mpr (Or.inl hij.symm)
        · have := W.holeDirty j q2 hold hh
          exact List.mem_cons.mpr (Or.inr this)
      · by_cases hij : h.index = j
        · exact List.mem_cons.mpr (Or.inl hij.symm)
        · rw [List.getElem?_set_ne hij] at hq2
          have := W.holeDirty j q2 hq2 hh
          exact List.mem_cons.mpr (Or.inr this)
    · simp only
      exact List.nodup_cons.mpr ⟨hnotdirty, W.dirtyNodup⟩
    · exact W.negOneLe

/-- In-place update preserves the well-formedness invariant. -/
theorem wf_update_particle (P : Particles) (p s : ParticleData) (W : Wf P) :
    Wf (P.update_particle p s).1 := by
  rcases update_particle_cases P p s with hself | ⟨q, hq, hv, ht, heq⟩
  · rw [hself]
    exact W
  · rw [heq]
    have hlen : p.index < P.data_.length := getElem?_some_lt hq
    constructor
    · intro j q2 hq2
      rcases getElem?_set_cases hq2 with hold | hqe
      · exact W.idxOk j q2 hold
      · subst hqe
        by_cases hij : p.index = j
        · have := W.idxOk p.index q hq
          simpa [ParticleData.copy_to, hij] using hij ▸ this
        · rw [List.getElem?_set_ne hij] at hq2
          have := W.idxOk j _ hq2
          simpa using this
    · intro q2 hq2
      rcases List.mem_or_eq_of_mem_set hq2 with hold | hnew
      · have := W.idLe q2 hold
        simpa using this
      · subst hnew
        have := W.idLe q (List.getElem?_mem hq)
        simpa [ParticleData.copy_to] using this
    · intro q2 hq2 hh
      rcases List.mem_or_eq_of_mem_set hq2 with hold | hnew
      · exact W.holeId q2 hold hh
      · subst hnew
        have := W.holeId q (List.getElem?_mem hq)
        simp [ParticleData.copy_to] at hh ⊢
        exact this hh
    · intro q2 hq2 hlive
      rcases List.mem_or_eq_of_mem_set hq2 with hold | hnew
      · exact W.liveId q2 hold hlive
      · subst hnew
        have := W.liveId q (List.getElem?_mem hq)
        simp [ParticleData.copy_to] at hlive ⊢
        exact this hlive
    · intro j hj
      simp only at hj
      obtain ⟨qj, hqj, hqjh⟩ := W.dirtyHole j hj
      by_cases hij : p.index = j
      · subst hij
        rw [hq] at hqj
        rw [← Option.some.inj hqj] at hqjh
        refine ⟨ParticleData.copy_to s q, ?_, ?_⟩
        · simp only
          rw [List.getElem?_set_self hlen]
        · simpa [ParticleData.copy_to] using hqjh
      · refine ⟨qj, ?_, hqjh⟩
        simp only
        rw [List.getElem?_set_ne hij]
        exact hqj
    · intro j q2 hq2 hh
      simp only at hq2 ⊢
      rcases getElem?_set_cases hq2 with hold | hqe
      · exact W.holeDirty j q2 hold hh
      · subst hqe
        simp [ParticleData.copy_to] at hh
        have := W.holeDirty p.index q hq hh
        by_cases hij : p.index = j
        · exact hij ▸ this
        · rw [List.getElem?_set_ne hij] at hq2
          have h2 := W.holeDirty j _ hq2
          simp [ParticleData.copy_to] at h2
          exact h2 hh
    · exact W.dirtyNodup
    · exact W.negOneLe

/-- Folding remove over a list of copies preserves well-formedness. -/
theorem wf_foldl_remove (rem : List ParticleData) :
    ∀ P : Particles, Wf P → Wf (rem.foldl Particles.remove P) := by
  induction rem with
  | nil => intro P W; exact W
  | cons p ps ih =>
      intro P W
      rw [List.foldl_cons]
      exact ih (P.remove p) (wf_remove P p W)

/-- Inserting a list of particles preserves well-formedness. -/
theorem wf_insertAll (ps : List ParticleData) :
    ∀ P : Particles, Wf P → Wf (P.insertAll ps).1 := by
  induction ps with
  | nil => intro P W; exact W
  | cons p ps ih =>
      intro P W
      exact ih (P.insert p).1 (wf_insert P p W)

/-- Replace preserves well-formedness. -/
theorem wf_replace (P : Particles) (rem add : List ParticleData) (W : Wf P) :
    Wf (P.replace rem add).1 :=
  wf_insertAll add _ (wf_foldl_remove rem P W)

/-- The pairwise update loop preserves well-formedness. -/
theorem wf_updateAll (os : List ParticleData) :
    ∀ (P : Particles) (ns : List ParticleData), Wf P →
      Wf (P.updateAll os ns).1 := by
  induction os with
  | nil => intro P ns W; cases ns <;> exact W
  | cons o os ih =>
      intro P ns W
      cases ns with
      | nil => exact W
      | cons n ns =>
          exact ih (P.update_particle o n).1 ns (wf_update_particle P o n W)

/-- Each registry operation preserves well-formedness. -/
theorem wf_step {P Q : Particles} (W : Wf P) (hs : Step P Q) : Wf Q := by
  cases hs with
  | insert p => exact wf_insert P p W
  | remove p => exact wf_remove P p W
  | update p s => exact wf_update_particle P p s W
  | replace rem add => exact wf_replace P rem add W

/-- Any sequence of registry operations preserves well-formedness. -/
theorem wf_steps {P Q : Particles} (W : Wf P) (hs : Steps P Q) : Wf Q := by
  induction hs with
  | refl => exact W
  | tail _ hstep ih => exact wf_step ih hstep

/-- Insert advances the id counter by exactly one. -/
theorem insert_id_max (P : Particles) (p : ParticleData) :
    ((P.insert p).1).id_max_ = P.id_max_ + 1 := by
  cases hd : P.dirty_ with
  | nil => rw [insert_eq_of_dirty_nil P p hd]
  | cons i rest => rw [insert_eq_of_dirty_cons P p i rest hd]

/-- The stored copy returned by insert carries the id counter plus one. -/
theorem insert_snd_id (P : Particles) (p : ParticleData) :
    ((P.insert p).2).id = P.id_max_ + 1 := by
  cases hd : P.dirty_ with
  | nil =>
      rw [insert_eq_of_dirty_nil P p hd]
      simp [Particles.fresh]
  | cons i rest =>
      rw [insert_eq_of_dirty_cons P p i rest hd]
      simp [Particles.fresh]

/-- Remove leaves the id counter unchanged. -/
theorem remove_id_max (P : Particles) (h : ParticleData) :
    (P.remove h).id_max_ = P.id_max_ := by
  rcases remove_cases P h with hself | ⟨q, _, _, _, _, heq⟩
  · rw [hself]
  · rw [heq]

/-- In-place update leaves the id counter unchanged. -/
theorem update_particle_id_max (P : Particles) (p s : ParticleData) :
    ((P.update_particle p s).1).id_max_ = P.id_max_ := by
  rcases update_particle_cases P p s with hself | ⟨q, _, _, _, heq⟩
  · rw [hself]
  · rw [heq]

/-- Folding remove leaves the id counter unchanged. -/
theorem foldl_remove_id_max (rem : List ParticleData) :
    ∀ P : Particles, (rem.foldl Particles.remove P).id_max_ = P.id_max_ := by
  induction rem with
  | nil => intro P; rfl
  | cons p ps ih =>
      intro P
      rw [List.foldl_cons, ih, remove_id_max]

/-- Inserting a list of particles never decreases the id counter. -/
theorem insertAll_id_max_le (ps : List ParticleData) :
    ∀ P : Particles, P.id_max_ ≤ ((P.insertAll ps).1).id_max_ := by
  induction ps with
  | nil => intro P; exact le_refl _
  | cons p ps ih =>
      intro P
      have h1 := ih (P.insert p).1
      rw [insert_id_max] at h1
      show P.id_max_ ≤ (((P.insert p).1.insertAll ps).1).id_max_
      omega

/-- The pairwise update loop leaves the id counter unchanged. -/
theorem updateAll_id_max (os : List ParticleData) :
    ∀ (P : Particles) (ns : List ParticleData),
      ((P.updateAll os ns).1).id_max_ = P.id_max_ := by
  induction os with
  | nil => intro P ns; cases ns <;> rfl
  | cons o os ih =>
      intro P ns
      cases ns with
      | nil => rfl
      | cons n ns =>
          unfold Particles.updateAll
          rw [ih, update_particle_id_max]

/-- No registry operation decreases the id counter. -/
theorem step_id_max_le {P Q : Particles} (hs : Step P Q) :
    P.id_max_ ≤ Q.id_max_ := by
  cases hs with
  | insert p => rw [insert_id_max]; omega
  | remove p => rw [remove_id_max]
  | update p s => rw [update_particle_id_max]
  | replace rem add =>
      have h1 := insertAll_id_max_le add (rem.foldl Particles.remove P)
      rw [foldl_remove_id_max] at h1
      exact h1

/-- No sequence of registry operations decreases the id counter. -/
theorem steps_id_max_le {P Q : Particles} (hs : Steps P Q) :
    P.id_max_ ≤ Q.id_max_ := by
  induction hs with
  | refl => exact le_refl _
  | tail _ hstep ih => exact le_trans ih (step_id_max_le hstep)

/-- A copy whose identity is dead at its own slot is invalid. -/
theorem dead_is_valid_false {P : Particles} {h : ParticleData}
    (D : Dead P h.index h.id) : P.is_valid h = false := by
  cases hv : P.is_valid h with
  | false => rfl
  | true =>
      obtain ⟨q, hq, hid, _⟩ := (is_valid_iff P h).mp hv
      exact absurd hid (D.2.2 q hq)

/-- Insertion preserves dead identities: the new particle carries a strictly
larger id. -/
theorem dead_insert {P : Particles} {i : Nat} {n : Int} (D : Dead P i n)
    (p : ParticleData) : Dead (P.insert p).1 i n := by
  obtain ⟨h0, hle, hslot⟩ := D
  cases hd : P.dirty_ with
  | nil =>
      rw [insert_eq_of_dirty_nil P p hd]
      refine ⟨h0, by dsimp only; omega, ?_⟩
      intro q hq
      rcases getElem?_concat_cases hq with hold | ⟨_, hqe⟩
      · exact hslot q hold
      · subst hqe
        show P.id_max_ + 1 ≠ n
        omega
  | cons j rest =>
      rw [insert_eq_of_dirty_cons P p j rest hd]
      refine ⟨h0, by dsimp only; omega, ?_⟩
      intro q hq
      rcases getElem?_set_cases hq with hold | hqe
      · exact hslot q hold
      · subst hqe
        show P.id_max_ + 1 ≠ n
        omega

/-- Removal preserves dead identities: a freshly marked hole carries id -1. -/
theorem dead_remove {P : Particles} {i : Nat} {n : Int} (D : Dead P i n)
    (h : ParticleData) : Dead (P.remove h) i n := by
  obtain ⟨h0, hle, hslot⟩ := D
  rcases remove_cases P h with hself | ⟨q, hq, h1, h2, h3, heq⟩
  · rw [hself]
    exact ⟨h0, hle, hslot⟩
  · rw [heq]
    refine ⟨h0, hle, ?_⟩
    intro q2 hq2
    rcases getElem?_set_cases hq2 with hold | hqe
    · exact hslot q2 hold
    · subst hqe
      show (-1 : Int) ≠ n
      omega

/-- In-place update preserves dead identities: copy_to keeps the stored id. -/
theorem dead_update_particle {P : Particles} {i : Nat} {n : Int}
    (D : Dead P i n) (p s : ParticleData) :
    Dead (P.update_particle p s).1 i n := by
  obtain ⟨h0, hle, hslot⟩ := D
  rcases update_particle_cases P p s with hself | ⟨q, hq, _, _, heq⟩
  · rw [hself]
    exact ⟨h0, hle, hslot⟩
  · rw [heq]
    refine ⟨h0, hle, ?_⟩
    intro q2 hq2
    dsimp only at hq2
    by_cases hpi : p.index = i
    · subst hpi
      rw [List.getElem?_set_self (getElem?_some_lt hq)] at hq2
      rw [← Option.some.inj hq2]
      show q.id ≠ n
      exact hslot q hq
    · rw [List.getElem?_set_ne hpi] at hq2
      exact hslot q2 hq2

/-- Folding remove preserves dead identities. -/
theorem dead_foldl_remove {i : Nat} {n : Int} (ps : List ParticleData) :
    ∀ P : Particles, Dead P i n → Dead (ps.foldl Particles.remove P) i n := by
  induction ps with
  | nil => intro P D; exact D
  | cons p ps ih =>
      intro P D
      rw [List.foldl_cons]
      exact ih (P.remove p) (dead_remove D p)

/-- Inserting a list of particles preserves dead identities. -/
theorem dead_insertAll {i : Nat} {n : Int} (ps : List ParticleData) :
    ∀ P : Particles, Dead P i n → Dead (P.insertAll ps).1 i n := by
  induction ps with
  | nil => intro P D; exact D
  | cons p ps ih =>
      intro P D
      exact ih (P.insert p).1 (dead_insert D p)

/-- Every registry operation preserves dead identities. -/
theorem dead_step {P Q : Particles} {i : Nat} {n : Int} (D : Dead P i n)
    (hs : Step P Q) : Dead Q i n := by
  cases hs with
  | insert p => exact dead_insert D p
  | remove p => exact dead_remove D p
  | update p s => exact dead_update_particle D p s
  | replace rem add => exact dead_insertAll add _ (dead_foldl_remove rem P D)

/-- Every sequence of registry operations preserves dead identities. -/
theorem dead_steps {P Q : Particles} {i : Nat} {n : Int} (D : Dead P i n)
    (hs : Steps P Q) : Dead Q i n := by
  induction hs with
  | refl => exact D
  | tail _ hstep ih => exact dead_step ih hstep

/-- Removing a valid copy of a live particle kills its identity. -/
theorem remove_dead {P : Particles} {h : ParticleData} (W : Wf P)
    (h0 : 0 ≤ h.id) (hv : P.is_valid h = true) :
    Dead (P.remove h) h.index h.id := by
  obtain ⟨q, hq, hhole, hid, hidp⟩ := valid_live W h0 hv
  rw [remove_eq_mark hq hhole hid hidp]
  refine ⟨h0, ?_, ?_⟩
  · have := W.idLe q (List.getElem?_mem hq)
    dsimp only
    omega
  · intro q2 hq2
    dsimp only at hq2
    rw [List.getElem?_set_self (getElem?_some_lt hq)] at hq2
    rw [← Option.some.inj hq2]
    show (-1 : Int) ≠ h.id
    omega

/-- Through a remove with arbitrary argument, a copy either stays valid or
its identity is dead. -/
theorem valid_or_dead_remove {P : Particles} {h : ParticleData}
    (p : ParticleData) (W : Wf P) (h0 : 0 ≤ h.id)
    (hvd : P.is_valid h = true ∨ Dead P h.index h.id) :
    (P.remove p).is_valid h = true ∨ Dead (P.remove p) h.index h.id := by
  rcases hvd with hv | hD
  · rcases remove_cases P p with hself | ⟨q, hq, h1, h2, h3, heq⟩
    · rw [hself]
      exact Or.inl hv
    · by_cases hidx : p.index = h.index
      · right
        rw [heq]
        obtain ⟨qh, hqh, hidh, _⟩ := (is_valid_iff P h).mp hv
        refine ⟨h0, ?_, ?_⟩
        · have := W.idLe qh (List.getElem?_mem hqh)
          dsimp only
          omega
        · intro q2 hq2
          dsimp only at hq2
          rw [← hidx] at hq2
          rw [List.getElem?_set_self (getElem?_some_lt hq)] at hq2
          rw [← Option.some.inj hq2]
          show (-1 : Int) ≠ h.id
          omega
      · left
        rw [heq]
        rw [is_valid_iff] at hv ⊢
        obtain ⟨qh, hqh, hidh, hidph⟩ := hv
        refine ⟨qh, ?_, hidh, hidph⟩
        dsimp only
        rw [List.getElem?_set_ne hidx]
        exact hqh
  · exact Or.inr (dead_remove hD p)

/-- After folding remove over a list containing the copy, its identity is
dead. -/
theorem foldl_remove_dead_of_mem {h : ParticleData} (h0 : 0 ≤ h.id) :
    ∀ (rem : List ParticleData) (P : Particles), Wf P → h ∈ rem →
      (P.is_valid h = true ∨ Dead P h.index h.id) →
      Dead (rem.foldl Particles.remove P) h.index h.id := by
  intro rem
  induction rem with
  | nil =>
      intro P _ hmem
      exact absurd hmem (List.not_mem_nil h)
  | cons p ps ih =>
      intro P W hmem hvd
      rw [List.foldl_cons]
      rcases List.mem_cons.mp hmem with hph | hmem2
      · subst hph
        have hD : Dead (P.remove h) h.index h.id := by
          rcases hvd with hv | hD
          · exact remove_dead W h0 hv
          · exact dead_remove hD h
        exact dead_foldl_remove ps (P.remove h) hD
      · exact ih (P.remove p) (wf_remove P p W) hmem2
          (valid_or_dead_remove p W h0 hvd)

/-- C1: for every handle h and every reachable registry state, is_valid h is
true iff the slot at h.index still holds a live particle whose id and
id_process both equal the values recorded in h; an index outside the used
range yields none and is therefore invalid.  Reachable states are captured by
the invariant Wf, and genuine handles carry a non-negative id. -/
theorem C1_is_valid_characterisation (P : Particles) (h : ParticleData)
    (W : Wf P) (h0 : 0 ≤ h.id) :
    P.is_valid h = true ↔
      ∃ q : ParticleData, P.data_[h.index]? = some q ∧ q.hole = false ∧
        q.id = h.id ∧ q.id_process = h.id_process := by
  constructor
  · exact valid_live W h0
  · rintro ⟨q, hq, _, hid, hidp⟩
    exact (is_valid_iff P h).mpr ⟨q, hq, hid, hidp⟩

/-- Witness for C1 at the concrete one-particle registry regA. -/
theorem C1_is_valid_characterisation_witness :
    regA.is_valid hA = true ↔
      ∃ q : ParticleData, regA.data_[hA.index]? = some q ∧ q.hole = false ∧
        q.id = hA.id ∧ q.id_process = hA.id_process :=
  C1_is_valid_characterisation regA hA
    (wf_insert Particles.empty pA wf_empty)
    (by rw [hA, insert_snd_id]; decide)

/-- C9: insert never fails (it is a total function), assigns the next unique
id — strictly above every id stored so far — and returns a copy that is valid
immediately; moreover a copy that was valid stays valid through an insert and
through a remove or in-place update aimed at a different slot. -/
theorem C9_insert_contract (P : Particles) (p h h2 s : ParticleData)
    (W : Wf P) :
    (((P.insert p).2).id = P.id_max_ + 1 ∧
      ∀ q ∈ P.data_, q.id < ((P.insert p).2).id) ∧
    ((P.insert p).1).is_valid ((P.insert p).2) = true ∧
    (P.is_valid h = true → 0 ≤ h.id →
      ((P.insert p).1).is_valid h = true ∧
      (h2.index ≠ h.index → (P.remove h2).is_valid h = true) ∧
      (h2.index ≠ h.index →
        ((P.update_particle h2 s).1).is_valid h = true)) := by
  refine ⟨⟨insert_snd_id P p, ?_⟩, ?_, ?_⟩
  · intro q hq
    have h1 := W.idLe q hq
    rw [insert_snd_id]
    omega
  · cases hd : P.dirty_ with
    | nil =>
        rw [insert_eq_of_dirty_nil P p hd]
        rw [is_valid_iff]
        refine ⟨P.fresh p P.data_.length, ?_, rfl, rfl⟩
        show (P.data_ ++ [P.fresh p P.data_.length])[(P.fresh p P.data_.length).index]? =
          some (P.fresh p P.data_.length)
        show (P.data_ ++ [P.fresh p P.data_.length])[P.data_.length]? =
          some (P.fresh p P.data_.length)
        exact List.getElem?_concat_length P.data_ _
    | cons i rest =>
        rw [insert_eq_of_dirty_cons P p i rest hd]
        rw [is_valid_iff]
        refine ⟨P.fresh p i, ?_, rfl, rfl⟩
        have hmemi : i ∈ P.dirty_ := by
          rw [hd]
          exact List.mem_cons_self i rest
        obtain ⟨qi, hqi, _⟩ := W.dirtyHole i hmemi
        show (P.data_.set i (P.fresh p i))[(P.fresh p i).index]? = some (P.fresh p i)
        show (P.data_.set i (P.fresh p i))[i]? = some (P.fresh p i)
        exact List.getElem?_set_self (getElem?_some_lt hqi)
  · intro hv h0
    obtain ⟨qh, hqh, hqhole, hqid, hqidp⟩ := valid_live W h0 hv
    refine ⟨?_, ?_, ?_⟩
    · cases hd : P.dirty_ with
      | nil =>
          rw [insert_eq_of_dirty_nil P p hd]
          rw [is_valid_iff]
          refine ⟨qh, ?_, hqid, hqidp⟩
          show (P.data_ ++ [P.fresh p P.data_.length])[h.index]? = some qh
          rw [List.getElem?_append_left (getElem?_some_lt hqh)]
          exact hqh
      | cons i rest =>
          rw [insert_eq_of_dirty_cons P p i rest hd]
          rw [is_valid_iff]
          refine ⟨qh, ?_, hqid, hqidp⟩
          have hmemi : i ∈ P.dirty_ := by
            rw [hd]
            exact List.mem_cons_self i rest
          obtain ⟨qi, hqi, hqih⟩ := W.dirtyHole i hmemi
          have hne : i ≠ h.index := by
            intro hcon
            rw [hcon, hqh] at hqi
            rw [← Option.some.inj hqi] at hqih
            rw [hqhole] at hqih
            exact Bool.noConfusion hqih
          show (P.data_.set i (P.fresh p i))[h.index]? = some qh
          rw [List.getElem?_set_ne hne]
          exact hqh
    · intro hne
      rcases remove_cases P h2 with hself | ⟨q2, hq2, _, _, _, heq⟩
      · rw [hself]
        exact hv
      · rw [heq]
        rw [is_valid_iff]
        refine ⟨qh, ?_, hqid, hqidp⟩
        show (P.data_.set h2.index _)[h.index]? = some qh
        rw [List.getElem?_set_ne hne]
        exact hqh
    · intro hne
      rcases update_particle_cases P h2 s with hself | ⟨q2, hq2, _, _, heq⟩
      · rw [hself]
        exact hv
      · rw [heq]
        rw [is_valid_iff]
        refine ⟨qh, ?_, hqid, hqidp⟩
        show (P.data_.set h2.index _)[h.index]? = some qh
        rw [List.getElem?_set_ne hne]
        exact hqh

/-- Witness for C9 at the concrete one-particle registry regA, with pB as the
particle inserted next and pA (recorded index 9, a different slot) as the
foreign handle. -/
theorem C9_insert_contract_witness :
    ((regA.insert pB).2).id = regA.id_max_ + 1 ∧
    ((regA.insert pB).1).is_valid ((regA.insert pB).2) = true ∧
    ((regA.insert pB).1).is_valid hA = true ∧
    (regA.remove pA).is_valid hA = true := by
  have hmain := C9_insert_contract regA pB hA pA pB
    (wf_insert Particles.empty pA wf_empty)
  have hv : regA.is_valid hA = true := by decide
  have h0 : 0 ≤ hA.id := by rw [hA, insert_snd_id]; decide
  have hne : pA.index ≠ hA.index := by decide
  exact ⟨hmain.1.1, hmain.2.1, (hmain.2.2 hv h0).1, (hmain.2.2 hv h0).2.1 hne⟩

/-- C10: on every reachable registry state copy_to_vector returns exactly the
live (non-hole) particles in slot order; in particular the fast raw-copy path
taken when the dirty list is empty agrees with the general hole-skipping
iterator path. -/
theorem C10_copy_to_vector_paths (P : Particles) (W : Wf P) :
    P.copy_to_vector = P.data_.filter (fun q => !q.hole) ∧
    (P.dirty_.isEmpty = true →
      P.copy_to_vector_fast = P.copy_to_vector_general) := by
  have hkey : P.dirty_.isEmpty = true →
      P.copy_to_vector_fast = P.copy_to_vector_general := by
    intro hd
    unfold Particles.copy_to_vector_fast Particles.copy_to_vector_general
    symm
    rw [List.filter_eq_self]
    intro q hq
    cases hqh : q.hole with
    | false => rfl
    | true =>
        obtain ⟨i, hi⟩ := List.mem_iff_getElem?.mp hq
        have := W.holeDirty i q hi hqh
        rw [List.isEmpty_iff] at hd
        rw [hd] at this
        exact absurd this (List.not_mem_nil i)
  constructor
  · unfold Particles.copy_to_vector
    by_cases hd : P.dirty_.isEmpty
    · rw [if_pos hd]
      exact hkey hd
    · rw [if_neg hd]
      rfl
  · exact hkey

/-- Witness for C10 at the concrete two-particle registry regAB. -/
theorem C10_copy_to_vector_paths_witness :
    regAB.copy_to_vector = regAB.data_.filter (fun q => !q.hole) ∧
    (regAB.dirty_.isEmpty = true →
      regAB.copy_to_vector_fast = regAB.copy_to_vector_general) :=
  C10_copy_to_vector_paths regAB
    (wf_insert regA pB (wf_insert Particles.empty pA wf_empty))

/-- Every copy returned by inserting a list of particles carries an id
strictly above the initial id counter. -/
theorem insertAll_snd_id_gt (ps : List ParticleData) :
    ∀ (P : Particles) (q : ParticleData), q ∈ (P.insertAll ps).2 →
      P.id_max_ < q.id := by
  induction ps with
  | nil =>
      intro P q hq
      simp [Particles.insertAll] at hq
  | cons p ps ih =>
      intro P q hq
      have hcons : (P.insertAll (p :: ps)).2 =
          (P.insert p).2 :: ((P.insert p).1.insertAll ps).2 := rfl
      rw [hcons] at hq
      rcases List.mem_cons.mp hq with rfl | hmem
      · rw [insert_snd_id]
        omega
      · have := ih (P.insert p).1 q hmem
        rw [insert_id_max] at this
        omega

/-- C3: along any operation sequence each newly created particle receives an
id strictly greater than every previously issued id — ids visible in any
intermediate state Q are strictly below the id a later insert assigns — and
in particular every copy returned by replace (the commit of a performed
Action) carries an id strictly greater than the id of each incoming valid
copy it consumes. -/
theorem C3_id_monotonicity (P Q R : Particles) (W : Wf P)
    (h1 : Steps P Q) (h2 : Steps Q R) :
    (∀ (p q : ParticleData), q ∈ Q.data_ → q.id < ((R.insert p).2).id) ∧
    (∀ (rem add : List ParticleData) (h : ParticleData),
      R.is_valid h = true → ∀ q ∈ (R.replace rem add).2, h.id < q.id) := by
  have WQ : Wf Q := wf_steps W h1
  have hQR : Q.id_max_ ≤ R.id_max_ := steps_id_max_le h2
  constructor
  · intro p q hq
    have hle := WQ.idLe q hq
    rw [insert_snd_id]
    omega
  · intro rem add h hv q hq
    have WR : Wf R := wf_steps WQ h2
    obtain ⟨qh, hqh, hid, _⟩ := (is_valid_iff R h).mp hv
    have hle : h.id ≤ R.id_max_ := by
      have := WR.idLe qh (List.getElem?_mem hqh)
      omega
    have hgt : (rem.foldl Particles.remove R).id_max_ < q.id :=
      insertAll_snd_id_gt add _ q hq
    rw [foldl_remove_id_max] at hgt
    omega

/-- Witness for C3 along the concrete trace empty → regA → regAB, inserting
pB next and replacing the valid copy hB by a new particle. -/
theorem C3_id_monotonicity_witness :
    hA.id < ((regAB.insert pB).2).id ∧
    (((regAB.replace [hB] [pA]).2).all
      fun q => decide (hB.id < q.id)) = true := by
  have hm := C3_id_monotonicity Particles.empty regA regAB wf_empty
    (Relation.ReflTransGen.single (Step.insert Particles.empty pA))
    (Relation.ReflTransGen.single (Step.insert regA pB))
  refine ⟨hm.1 pB hA (by decide), ?_⟩
  rw [List.all_eq_true]
  intro q hq
  have := hm.2 [hB] [pA] hB (by decide) q hq
  simpa using this

/-- The registry state after an elastic perform is the result of the two
in-place updates with the stamped outgoing states. -/
theorem performElastic_fst (P : Particles) (a b : ParticleData)
    (pa pb : FourVector) (idp : Nat) :
    (performElastic P a b pa pb idp).1 =
      ((P.update_particle a
          { a with momentum := pa, id_process := idp }).1.update_particle b
          { b with momentum := pb, id_process := idp }).1 := rfl

/-- C2: once remove or replace (the commit of a performed Action) consumes a
handle, is_valid on that exact handle is false in every later registry state,
even if the slot is reused by a new particle; and after an elastic Action is
performed in place with a fresh process id, is_valid on a handle to an
incoming particle obtained before execution is false. -/
theorem C2_consumed_handle_invalid (P : Particles) (h : ParticleData)
    (W : Wf P) (h0 : 0 ≤ h.id) (hv : P.is_valid h = true) :
    (∀ Q : Particles, Steps (P.remove h) Q → Q.is_valid h = false) ∧
    (∀ (rem add : List ParticleData) (Q : Particles), h ∈ rem →
      Steps (P.replace rem add).1 Q → Q.is_valid h = false) ∧
    (∀ (b : ParticleData) (pa pb : FourVector) (idp : Nat),
      b.index ≠ h.index → idp ≠ h.id_process →
      ((performElastic P h b pa pb idp).1).is_valid h = false) := by
  refine ⟨?_, ?_, ?_⟩
  · intro Q hQ
    exact dead_is_valid_false (dead_steps (remove_dead W h0 hv) hQ)
  · intro rem add Q hmem hQ
    have hD : Dead (P.replace rem add).1 h.index h.id := by
      unfold Particles.replace
      exact dead_insertAll add _
        (foldl_remove_dead_of_mem h0 rem P W hmem (Or.inl hv))
    exact dead_is_valid_false (dead_steps hD hQ)
  · intro b pa pb idp hbne hidp
    rw [performElastic_fst]
    obtain ⟨q, hq, _, _⟩ := (is_valid_iff P h).mp hv
    have hw := @update_particle_eq_write P h
      { h with momentum := pa, id_process := idp } q hq hv rfl
    have hslot1 : ((P.update_particle h
        { h with momentum := pa, id_process := idp }).1).data_[h.index]? =
        some (ParticleData.copy_to
          { h with momentum := pa, id_process := idp } q) := by
      rw [hw]
      dsimp only
      exact List.getElem?_set_self (getElem?_some_lt hq)
    have hslot2 : (((P.update_particle h
        { h with momentum := pa, id_process := idp }).1).update_particle b
        { b with momentum := pb, id_process := idp }).1.data_[h.index]? =
        some (ParticleData.copy_to
          { h with momentum := pa, id_process := idp } q) := by
      rcases update_particle_cases (P.update_particle h
          { h with momentum := pa, id_process := idp }).1 b
          { b with momentum := pb, id_process := idp } with
        hself | ⟨qb, hqb, _, _, heq⟩
      · rw [hself]
        exact hslot1
      · rw [heq]
        dsimp only
        rw [List.getElem?_set_ne hbne]
        exact hslot1
    cases hfin : (((P.update_particle h
        { h with momentum := pa, id_process := idp }).1).update_particle b
        { b with momentum := pb, id_process := idp }).1.is_valid h with
    | false => rfl
    | true =>
        obtain ⟨q2, hq2, _, hidp2⟩ := (is_valid_iff _ h).mp hfin
        rw [hslot2] at hq2
        rw [← Option.some.inj hq2] at hidp2
        exact absurd hidp2 hidp

/-- Witness for C2: removing the valid copy hA from regA and then reusing the
freed slot for pB leaves hA invalid, and an elastic perform on regA with
process id 2 invalidates hA. -/
theorem C2_consumed_handle_invalid_witness :
    (((regA.remove hA).insert pB).1).is_valid hA = false ∧
    ((performElastic regA hA pB ⟨1, -1, 0, 0⟩ ⟨1, 1, 0, 0⟩ 2).1).is_valid hA =
      false := by
  have hm := C2_consumed_handle_invalid regA hA
    (wf_insert Particles.empty pA wf_empty)
    (by rw [hA, insert_snd_id]; decide)
    (by decide)
  exact ⟨hm.1 ((regA.remove hA).insert pB).1
      (Relation.ReflTransGen.single (Step.insert (regA.remove hA) pB)),
    hm.2.2 pB ⟨1, -1, 0, 0⟩ ⟨1, 1, 0, 0⟩ 2 (by decide) (by decide)⟩

/-- C5: update_particle preserves the stored id and copies id_process,
momentum and position from the new state, leaving the other identity fields
(type, slot index, hole marker) unchanged; consequently an elastic 2->2
perform leaves both incoming particles with their id and four-position
unchanged while refreshing their id_process to the caller-supplied process
id. -/
theorem C5_elastic_keeps_identity :
    (∀ (P : Particles) (p s q : ParticleData),
      P.is_valid p = true → p.ptype = s.ptype → P.data_[p.index]? = some q →
      ∃ r : ParticleData,
        ((P.update_particle p s).1).data_[p.index]? = some r ∧
        (P.update_particle p s).2 = r ∧
        r.id = q.id ∧ r.ptype = q.ptype ∧ r.index = q.index ∧
        r.hole = q.hole ∧ r.id_process = s.id_process ∧
        r.momentum = s.momentum ∧ r.position = s.position) ∧
    (∀ (P : Particles) (a b : ParticleData) (pa pb : FourVector) (idp : Nat),
      P.is_valid a = true → P.is_valid b = true → a.index ≠ b.index →
      ∃ ra rb : ParticleData,
        ((performElastic P a b pa pb idp).1).data_[a.index]? = some ra ∧
        ((performElastic P a b pa pb idp).1).data_[b.index]? = some rb ∧
        ra.id = a.id ∧ ra.position = a.position ∧ ra.momentum = pa ∧
        ra.id_process = idp ∧
        rb.id = b.id ∧ rb.position = b.position ∧ rb.momentum = pb ∧
        rb.id_process = idp) := by
  constructor
  · intro P p s q hv ht hq
    have hw := @update_particle_eq_write P p s q hq hv ht
    refine ⟨ParticleData.copy_to s q, ?_, ?_, rfl, rfl, rfl, rfl, rfl, rfl, rfl⟩
    · rw [hw]
      dsimp only
      exact List.getElem?_set_self (getElem?_some_lt hq)
    · rw [hw]
  · intro P a b pa pb idp hva hvb hne
    obtain ⟨qa, hqa, haid, haidp⟩ := (is_valid_iff P a).mp hva
    obtain ⟨qb, hqb, hbid, hbidp⟩ := (is_valid_iff P b).mp hvb
    have hw1 := @update_particle_eq_write P a
      { a with momentum := pa, id_process := idp } qa hqa hva rfl
    have hslotb1 : ((P.update_particle a
        { a with momentum := pa, id_process := idp }).1).data_[b.index]? =
        some qb := by
      rw [hw1]
      dsimp only
      rw [List.getElem?_set_ne hne]
      exact hqb
    have hslota1 : ((P.update_particle a
        { a with momentum := pa, id_process := idp }).1).data_[a.index]? =
        some (ParticleData.copy_to
          { a with momentum := pa, id_process := idp } qa) := by
      rw [hw1]
      dsimp only
      exact List.getElem?_set_self (getElem?_some_lt hqa)
    have hvb1 : ((P.update_particle a
        { a with momentum := pa, id_process := idp }).1).is_valid b = true :=
      (is_valid_iff _ b).mpr ⟨qb, hslotb1, hbid, hbidp⟩
    have hw2 := @update_particle_eq_write
      (P.update_particle a { a with momentum := pa, id_process := idp }).1 b
      { b with momentum := pb, id_process := idp } qb hslotb1 hvb1 rfl
    rw [performElastic_fst]
    refine ⟨ParticleData.copy_to { a with momentum := pa, id_process := idp } qa,
      ParticleData.copy_to { b with momentum := pb, id_process := idp } qb,
      ?_, ?_, haid, rfl, rfl, rfl, hbid, rfl, rfl, rfl⟩
    · rw [hw2]
      dsimp only
      rw [List.getElem?_set_ne (fun hcon => hne hcon.symm)]
      exact hslota1
    · rw [hw2]
      dsimp only
      exact List.getElem?_set_self (getElem?_some_lt hslotb1)

/-- Witness for C5: in-place update of the valid copy hA in regAB with a new
momentum, and an elastic perform on the pair hA, hB with process id 2. -/
theorem C5_elastic_keeps_identity_witness :
    (∃ r : ParticleData,
      ((regAB.update_particle hA
          { hA with momentum := ⟨1, -1, 0, 0⟩, id_process := 2 }).1).data_[hA.index]? =
        some r ∧
      (regAB.update_particle hA
          { hA with momentum := ⟨1, -1, 0, 0⟩, id_process := 2 }).2 = r ∧
      r.id = hA.id ∧ r.ptype = hA.ptype ∧ r.index = hA.index ∧
      r.hole = hA.hole ∧ r.id_process = 2 ∧
      r.momentum = ⟨1, -1, 0, 0⟩ ∧ r.position = hA.position) ∧
    (∃ ra rb : ParticleData,
      ((performElastic regAB hA hB ⟨1, -1, 0, 0⟩ ⟨1, 1, 0, 0⟩ 2).1).data_[hA.index]? =
        some ra ∧
      ((performElastic regAB hA hB ⟨1, -1, 0, 0⟩ ⟨1, 1, 0, 0⟩ 2).1).data_[hB.index]? =
        some rb ∧
      ra.id = hA.id ∧ ra.position = hA.position ∧ ra.momentum = ⟨1, -1, 0, 0⟩ ∧
      ra.id_process = 2 ∧
      rb.id = hB.id ∧ rb.position = hB.position ∧ rb.momentum = ⟨1, 1, 0, 0⟩ ∧
      rb.id_process = 2) := by
  have hm := C5_elastic_keeps_identity
  constructor
  · have hq : regAB.data_[hA.index]? = some hA := by decide
    exact hm.1 regAB hA { hA with momentum := ⟨1, -1, 0, 0⟩, id_process := 2 }
      hA (by decide) rfl hq
  · exact hm.2 regAB hA hB ⟨1, -1, 0, 0⟩ ⟨1, 1, 0, 0⟩ 2 (by decide) (by decide)
      (by decide)

/-- Counterexample to C4: a computed cross section above the bound is
silently replaced by the cutoff value — cut_off 200 300 returns 200, not
300, so cross-section values are in fact silently clamped. -/
theorem C4_cut_off_counterexample : cut_off 200 300 = 200 ∧ (200 : ℚ) ≠ 300 := by
  constructor
  · unfold cut_off
    norm_num
  · norm_num

/-- C4 amended: every photon cross-section return value passes through
cut_off, which silently replaces any value exceeding the
maximum_cross_section bound by the bound and returns any value at or below
the bound unchanged — values are clamped from above, not reported as
errors. -/
theorem C4_cut_off_clamps (M sigma : ℚ) :
    (sigma ≤ M → cut_off M sigma = sigma) ∧
    (M < sigma → cut_off M sigma = M) := by
  constructor
  · intro hle
    unfold cut_off
    rw [if_neg (not_lt.mpr hle)]
  · intro hlt
    unfold cut_off
    rw [if_pos hlt]

/-- Witness for the amended C4 at the bound 200 with values 100 and 300. -/
theorem C4_cut_off_clamps_witness :
    cut_off 200 100 = 100 ∧ cut_off 200 300 = 200 :=
  ⟨(C4_cut_off_clamps 200 100).1 (by norm_num),
   (C4_cut_off_clamps 200 300).2 (by norm_num)⟩

/-- Accumulating channels equals the start value plus the sum of the positive
channels. -/
theorem foldl_add_channel (l : List ℚ) :
    ∀ c : ℚ, l.foldl add_channel c =
      c + (l.filter fun x => decide (0 < x)).sum := by
  induction l with
  | nil =>
      intro c
      simp
  | cons x xs ih =>
      intro c
      rw [List.foldl_cons]
      by_cases hx : x ≤ 0
      · have hstep : add_channel c x = c := by
          unfold add_channel
          rw [if_pos hx]
        have hfil : (x :: xs).filter (fun x => decide (0 < x)) =
            xs.filter (fun x => decide (0 < x)) := by
          rw [List.filter_cons]
          simp [not_lt.mpr hx]
        rw [hstep, ih c, hfil]
      · have hx2 : 0 < x := lt_of_not_le hx
        have hstep : add_channel c x = c + x := by
          unfold add_channel
          rw [if_neg hx]
        have hfil : (x :: xs).filter (fun x => decide (0 < x)) =
            x :: xs.filter (fun x => decide (0 < x)) := by
          rw [List.filter_cons]
          simp [hx2]
        rw [hstep, ih (c + x), hfil]
        rw [List.sum_cons]
        ring

/-- The total cross section does not depend on the channel-addition order
being reversed. -/
theorem total_cross_section_reverse (l : List ℚ) :
    total_cross_section l.reverse = total_cross_section l := by
  unfold total_cross_section
  rw [foldl_add_channel, foldl_add_channel, List.filter_reverse,
    List.sum_reverse]

/-- C6: the total cross section is symmetric in the colliding pair — for any
species pair and any channel provider, swapping the two particles, which
reverses the channel-addition order of the same channel set, leaves
total_cross_section unchanged: total_cross_section(a,b) =
total_cross_section(b,a). -/
theorem C6_total_cross_section_symmetric
    (provider : Nat → Nat → List ℚ) (a b : Nat)
    (hswap : provider b a = (provider a b).reverse) :
    total_cross_section (provider b a) =
      total_cross_section (provider a b) := by
  rw [hswap, total_cross_section_reverse]

/-- Witness for C6 at the concrete provider and the pair 0, 1. -/
theorem C6_total_cross_section_symmetric_witness :
    total_cross_section (providerEx 1 0) =
      total_cross_section (providerEx 0 1) :=
  C6_total_cross_section_symmetric providerEx 0 1 (by rfl)

/-- Counterexample to C7: the three-momenta of cexA and cexB are exactly
parallel (vanishing cross product, both along positive x with positive
energies), yet the computed collision time is 4, a valid future time — a
rear-end approach of parallel movers is a collision candidate, so parallel
momenta alone do not imply rejection. -/
theorem C7_parallel_counterexample :
    (cexA.momentum.threevec).cross (cexB.momentum.threevec) = ⟨0, 0, 0⟩ ∧
    0 < cexA.momentum.x0 ∧ 0 < cexB.momentum.x0 ∧
    collision_time cexA cexB = 4 := by
  refine ⟨?_, by norm_num [cexA], by norm_num [cexB], ?_⟩
  · show ThreeVector.cross ⟨1, 0, 0⟩ ⟨3/4, 0, 0⟩ = ⟨0, 0, 0⟩
    unfold ThreeVector.cross
    norm_num
  · unfold collision_time
    norm_num [velocity, cexA, cexB, ThreeVector.sub, ThreeVector.dot,
      FourVector.threevec]

/-- C7 amended: a pair with no relative motion — equal three-velocities, in
particular the identical momenta and energies of the impossible_collision
test — yields a negative collision time, hence no collision candidate and no
error; exactly parallel momenta with unequal velocities can still produce a
valid future collision time. -/
theorem C7_no_candidate_zero_relative_velocity (a b : ParticleData)
    (hv : velocity a = velocity b) :
    collision_time a b < 0 := by
  unfold collision_time
  have hz : ((velocity a).sub (velocity b)).dot
      ((velocity a).sub (velocity b)) = 0 := by
    rw [hv]
    unfold ThreeVector.sub ThreeVector.dot
    ring
  rw [if_pos hz]
  norm_num

/-- Witness for the amended C7 at the concrete particles of the
impossible_collision test. -/
theorem C7_no_candidate_witness : collision_time impA impB < 0 :=
  C7_no_candidate_zero_relative_velocity impA impB rfl

/-- Unfolding of actionLt as a lexicographic comparison. -/
theorem actionLt_iff (x y : ActionKey) :
    actionLt x y = true ↔
      (x.time < y.time ∨ (x.time = y.time ∧
        (x.idLow < y.idLow ∨
          (x.idLow = y.idLow ∧ x.idHigh < y.idHigh)))) := by
  unfold actionLt
  split_ifs with h1 h2 h3 h4 h5
  · simpa using Or.inl h1
  · simp only [Bool.false_eq_true, false_iff]
    rintro (hc | ⟨hc, _⟩)
    · exact h1 hc
    · rw [hc] at h2
      exact lt_irrefl _ h2
  · have he : x.time = y.time := le_antisymm (not_lt.mp h2) (not_lt.mp h1)
    simpa using Or.inr ⟨he, Or.inl h3⟩
  · simp only [Bool.false_eq_true, false_iff]
    rintro (hc | ⟨_, hc | ⟨hc, _⟩⟩)
    · exact h1 hc
    · exact h3 hc
    · rw [hc] at h4
      exact lt_irrefl _ h4
  · have he : x.time = y.time := le_antisymm (not_lt.mp h2) (not_lt.mp h1)
    have hi : x.idLow = y.idLow := le_antisymm (not_lt.mp h4) (not_lt.mp h3)
    simpa using Or.inr ⟨he, Or.inr ⟨hi, h5⟩⟩
  · simp only [Bool.false_eq_true, false_iff]
    rintro (hc | ⟨_, hc | ⟨_, hc⟩⟩)
    · exact h1 hc
    · exact h3 hc
    · exact h5 hc

/-- C8: candidate Actions are executed in ascending collision-time order — a
strictly smaller scheduled time compares strictly less — and equal-time ties
are broken by the stable deterministic secondary key given by the ascending
particle id pair: the ordering is asymmetric and total on distinct keys, so
the execution order is deterministic. -/
theorem C8_action_ordering (x y : ActionKey) :
    (x.time < y.time → actionLt x y = true) ∧
    (x.time = y.time → (actionLt x y = true ↔
      (x.idLow < y.idLow ∨ (x.idLow = y.idLow ∧ x.idHigh < y.idHigh)))) ∧
    (actionLt x y = true → actionLt y x = false) ∧
    (x ≠ y → actionLt x y = true ∨ actionLt y x = true) := by
  refine ⟨?_, ?_, ?_, ?_⟩
  · intro h
    rw [actionLt_iff]
    exact Or.inl h
  · intro h
    rw [actionLt_iff]
    constructor
    · rintro (hc | ⟨_, hd⟩)
      · rw [h] at hc
        exact absurd hc (lt_irrefl _)
      · exact hd
    · intro hd
      exact Or.inr ⟨h, hd⟩
  · intro hlt
    rw [actionLt_iff] at hlt
    cases hb : actionLt y x with
    | false => rfl
    | true =>
        rw [actionLt_iff] at hb
        exfalso
        rcases hlt with h1 | ⟨he1, hl1⟩ <;> rcases hb with h2 | ⟨he2, hl2⟩
        · exact lt_asymm h1 h2
        · rw [he2] at h1
          exact lt_irrefl _ h1
        · rw [he1] at h2
          exact lt_irrefl _ h2
        · rcases hl1 with hi1 | ⟨hj1, hk1⟩ <;>
            rcases hl2 with hi2 | ⟨hj2, hk2⟩ <;> omega
  · intro hne
    rcases lt_trichotomy x.time y.time with ht | ht | ht
    · left
      rw [actionLt_iff]
      exact Or.inl ht
    · rcases lt_trichotomy x.idLow y.idLow with hi | hi | hi
      · left
        rw [actionLt_iff]
        exact Or.inr ⟨ht, Or.inl hi⟩
      · rcases lt_trichotomy x.idHigh y.idHigh with hk | hk | hk
        · left
          rw [actionLt_iff]
          exact Or.inr ⟨ht, Or.inr ⟨hi, hk⟩⟩
        · exfalso
          apply hne
          cases x
          cases y
          simp only at ht hi hk
          rw [ht, hi, hk]
        · right
          rw [actionLt_iff]
          exact Or.inr ⟨ht.symm, Or.inr ⟨hi.symm, hk⟩⟩
      · right
        rw [actionLt_iff]
        exact Or.inr ⟨ht.symm, Or.inl hi⟩
    · right
      rw [actionLt_iff]
      exact Or.inl ht

/-- Witness for C8 at the keys of the sorting test (times 1 and 1.1 on the
same id pair) and at an equal-time pair ordered by the secondary key. -/
theorem C8_action_ordering_witness :
    actionLt ⟨1, 1, 2⟩ ⟨11/10, 1, 2⟩ = true ∧
    actionLt ⟨1, 1, 2⟩ ⟨1, 1, 3⟩ = true :=
  ⟨(C8_action_ordering ⟨1, 1, 2⟩ ⟨11/10, 1, 2⟩).1 (by norm_num),
   ((C8_action_ordering ⟨1, 1, 2⟩ ⟨1, 1, 3⟩).2.1 rfl).mpr
     (Or.inr ⟨rfl, by norm_num⟩)⟩

end Smash
